import Mathlib

/-!
Verification of the text-extraction core of the view-ads application
(src/app.py).  The extraction functions operate on Unicode text; here a
text is a `List Char` of Unicode scalar values.  Python regular
expressions are translated into executable Lean functions that realise
the exact leftmost-search / greedy / non-greedy backtracking behaviour
of the patterns appearing in the source (each translation is documented
at its definition).  Python's `\s` and `\d` classes are modelled by the
ASCII whitespace set and ASCII digits; every marker, phrase and digit in
this application's domain lies in that fragment.
-/

namespace ViewAds
/-- The ASCII fragment of Python's whitespace class `\s`
    (space, tab, newline, carriage return, vertical tab, form feed). -/
def isSpaceChar (c : Char) : Bool :=
  c == ' ' || c == '\t' || c == '\n' || c == '\r' || c == '\x0b' || c == '\x0c'

/-- Python's digit class `\d`, restricted to ASCII digits. -/
def isDigitChar (c : Char) : Bool := c.isDigit

def notSpaceChar (c : Char) : Bool := !isSpaceChar c

/-- Does the pattern occur literally at the head of the text? -/
def listStartsWith : List Char → List Char → Bool
  | [], _ => true
  | _ :: _, [] => false
  | p :: ps, c :: cs => p == c && listStartsWith ps cs

/-- Remove the pattern from the head of the text, when it occurs there. -/
def stripLit : List Char → List Char → Option (List Char)
  | [], s => some s
  | _ :: _, [] => none
  | p :: ps, c :: cs => if p = c then stripLit ps cs else none

/-- Python's substring test (the `in` operator on strings). -/
def containsSub (pat : List Char) : List Char → Bool
  | [] => listStartsWith pat []
  | c :: rest => listStartsWith pat (c :: rest) || containsSub pat rest

/-- Greedy `\s*`: skip the maximal run of whitespace. -/
def dropSpaces (s : List Char) : List Char := s.dropWhile isSpaceChar

def stripEnd (s : List Char) : List Char := (s.reverse.dropWhile isSpaceChar).reverse

/-- Python's str.strip(): remove leading and trailing whitespace. -/
def stripChars (s : List Char) : List Char := stripEnd (s.dropWhile isSpaceChar)

/-- Python's text.split(pat)[0]: the prefix before the first occurrence
    of the (non-empty) pattern; the whole text when the pattern is absent. -/
def splitFirst (pat : List Char) : List Char → List Char
  | [] => []
  | c :: rest =>
    if listStartsWith pat (c :: rest) then []
    else c :: splitFirst pat rest

/-- The position scan of Python's re.search: try the matcher at every
    suffix, left to right, and return the first success. -/
def searchFrom {α : Type} (f : List Char → Option α) : List Char → Option α
  | [] => f []
  | c :: rest =>
    match f (c :: rest) with
    | some r => some r
    | none => searchFrom f rest

/-! ## The marker grammar constants (src/app.py lines 44, 126-150, 188-189) -/

/-- The escaped arrow marker "⬅️" (two scalar values: U+2B05 U+FE0F). -/
def arrowMark : List Char := "⬅️".toList

def notFoundStr : List Char := "לא נמצא".toList

def sentinelRole : List Char := "לא צוינו תפקידים".toList

def rolesTitle : List Char := "דרושים".toList

def areaLabel : List Char := "אזור בארץ:".toList

def unitTypeMarker : List Char := "סוג יחידה".toList

def areaMarker : List Char := "אזור בארץ".toList

def qualTitle : List Char := "כישורים נדרשים".toList

def unitInfoTitle : List Char := "פרטים על היחידה".toList

def serviceTermsTitle : List Char := "תנאי שירות".toList

def periodMarker : List Char := "תקופת שירות הקרובה".toList

def alarmGlyph : List Char := "⏰".toList

def recruitPhrase : List Char := "🔊 זמני או קבוע".toList

def recruitLabel : List Char := "זמני או קבוע".toList

def yesStr : List Char := "כן".toList

def noStr : List Char := "לא".toList

/-! ## parse_ad_number (src/app.py lines 126-128)

Pattern: מודעה\s*מספר\s*#(\d+).  After each literal the greedy \s* is
forced to the maximal whitespace run because the next literal starts
with a non-whitespace character. -/

def matchAdAt (s : List Char) : Option (List Char) :=
  (stripLit "מודעה".toList s).bind fun s1 =>
  (stripLit "מספר".toList (dropSpaces s1)).bind fun s2 =>
  (stripLit ['#'] (dropSpaces s2)).bind fun rest =>
    if (rest.takeWhile isDigitChar).isEmpty then none
    else some (rest.takeWhile isDigitChar)

def parse_ad_number (text : List Char) : List Char :=
  (searchFrom matchAdAt text).getD notFoundStr

/-! ## The section terminator lookahead (src/app.py lines 131, 136, 144)

Lookahead (?=\n-+\s|\n⬅️|$).  A bare $ (no MULTILINE) matches at the
end of the text or just before a trailing final newline.  In -+\s the
greedy -+ must stop at the end of the maximal dash run, after which a
whitespace character is required. -/

/-- Does the regex fragment -+\s match at this position? -/
def dashWsAt (s : List Char) : Bool :=
  match s with
  | '-' :: rest =>
    match rest.dropWhile (· == '-') with
    | c :: _ => isSpaceChar c
    | [] => false
  | _ => false

/-- Does the terminator lookahead \n-+\s | \n⬅️ | $ succeed at this position? -/
def termStop (s : List Char) : Bool :=
  match s with
  | [] => true
  | '\n' :: rest => rest.isEmpty || dashWsAt rest || listStartsWith arrowMark rest
  | _ => false

/-- The non-greedy capture ([\s\S]*?) followed by the terminator
    lookahead: the shortest prefix whose end position satisfies the
    lookahead (such a position always exists: the end of text). -/
def captureUntilTerm : List Char → List Char
  | [] => []
  | c :: rest => if termStop (c :: rest) then [] else c :: captureUntilTerm rest

/-! ## parse_between (src/app.py lines 130-133) -/

/-- Match marker\s*:\s* at this position, returning the text after it
    (the start of the capture group).  Both greedy \s* are forced to the
    maximal whitespace run, since ':' is not whitespace and the capture
    with its lookahead always succeeds once this much has matched. -/
def afterMarkerColon (marker : List Char) (s : List Char) : Option (List Char) :=
  match stripLit marker s with
  | none => none
  | some s1 =>
    match stripLit [':'] (dropSpaces s1) with
    | none => none
    | some s2 => some (dropSpaces s2)

def parse_between (text marker : List Char) : List Char :=
  match searchFrom (afterMarkerColon marker) text with
  | some rest => stripChars (captureUntilTerm rest)
  | none => []

/-! ## parse_section (src/app.py lines 135-141) -/

/-- Match ⬅️\s*title\s*:\s* at this position.  The \s* after the arrow
    is forced to the maximal run because the title starts with a
    non-whitespace character. -/
def afterSectionColon (title : List Char) (s : List Char) : Option (List Char) :=
  match stripLit arrowMark s with
  | none => none
  | some s1 => afterMarkerColon title (dropSpaces s1)

/-- re.sub(r"-+\s*", "", s): left-to-right replacement of every
    (greedy) dash run together with the whitespace run after it.  The
    scan consumes at least one character per step, so the length of the
    text is enough fuel; the fuel only makes the recursion structural. -/
def removeDashRunsAux : Nat → List Char → List Char
  | _, [] => []
  | 0, s => s
  | fuel + 1, c :: rest =>
    if c = '-' then
      removeDashRunsAux fuel ((rest.dropWhile (· == '-')).dropWhile isSpaceChar)
    else c :: removeDashRunsAux fuel rest

def removeDashRuns (s : List Char) : List Char := removeDashRunsAux s.length s

def parse_section (text title : List Char) : List Char :=
  match searchFrom (afterSectionColon title) text with
  | some rest => stripChars (removeDashRuns (captureUntilTerm rest))
  | none => []

/-! ## parse_roles (src/app.py lines 143-150)

The roles section is captured exactly like parse_section (without the
dash substitution); then re.findall(r"\*\*\s*(.+)", section) scans the
section.  At a match position, after the literal "**" the greedy \s*
takes the maximal whitespace run; if a character follows it (it cannot
be a newline), the greedy (.+) captures up to the end of that line.  If
the whitespace run reaches the end of the text, the engine gives back
whitespace characters one at a time until (.+) can match, which selects
the last non-newline character of the run as a one-character group. -/

/-- The backtracking fallback: the last non-newline character of an
    all-whitespace run, together with the characters after it. -/
def bulletFallback : List Char → Option (Char × List Char)
  | [] => none
  | c :: rest =>
    match bulletFallback rest with
    | some r => some r
    | none => if c = '\n' then none else some (c, rest)

/-- Match \*\*\s*(.+) at this position, returning the group and the
    remainder of the text after the whole match. -/
def matchBulletAt (s : List Char) : Option (List Char × List Char) :=
  match s with
  | c1 :: c2 :: rest =>
    if c1 = '*' ∧ c2 = '*' then
      match rest.dropWhile isSpaceChar with
      | c :: e2 =>
        let g := (c :: e2).takeWhile (· != '\n')
        some (g, (c :: e2).drop g.length)
      | [] =>
        match bulletFallback (rest.takeWhile isSpaceChar) with
        | some (ch, after) => some ([ch], after)
        | none => none
    else none
  | _ => none

/-- re.findall: scan left to right; after a match continue at the end of
    the match, otherwise advance one position.  By matchBulletAt_length
    every step consumes at least one character, so the length of the
    text is enough fuel; the fuel only makes the recursion structural. -/
def findBulletsAux : Nat → List Char → List (List Char)
  | _, [] => []
  | 0, _ => []
  | fuel + 1, c :: rest =>
    match matchBulletAt (c :: rest) with
    | some (g, rem) => g :: findBulletsAux fuel rem
    | none => findBulletsAux fuel rest

def findBullets (s : List Char) : List (List Char) := findBulletsAux s.length s

def parse_roles (text : List Char) : List (List Char) :=
  match searchFrom (afterSectionColon rolesTitle) text with
  | some rest => (findBullets (captureUntilTerm rest)).map stripChars
  | none => []

/-! ## parse_exempt_line (src/app.py lines 77-121)

Pattern [⛔🖐🏻].*?(?:פטור|מאגר).* — the character class holds the three
scalar values U+26D4, U+1F590 and U+1F3FB (the hand glyph "🖐🏻" of the
source is two scalar values, which a class treats separately).  Since
the dot does not match a newline, a position matches exactly when its
character is in the class and פטור or מאגר occurs later on the same
line; group(0) then runs from that character to the end of the line.
The phrase tests are then applied to group(0). -/

def classChar (c : Char) : Bool := c == '⛔' || c == '🖐' || c == '🏻'

def ptorWord : List Char := "פטור".toList

def maagarWord : List Char := "מאגר".toList

def negPtorPhrase : List Char := "לא רלוונטי לבעלי \"פטור\"".toList

def barePtorPhrase : List Char := "לבעלי \"פטור\"".toList

def parenNotPtor : List Char := "(לא פטור!)".toList

def notRelevantPhrase : List Char := "לא רלוונטי".toList

def maagarPhrase : List Char := "משוייכים ל\"מאגר\"".toList

/-- One position of the search for [⛔🖐🏻].*?(?:פטור|מאגר).*; on success
    returns group(0): from the class character to the end of its line. -/
def matchExemptAt : List Char → Option (List Char)
  | [] => none
  | c :: rest =>
    if classChar c then
      let line := rest.takeWhile (· != '\n')
      if containsSub ptorWord line || containsSub maagarWord line then some (c :: line)
      else none
    else none

def parse_exempt_line (text : List Char) : Option Bool × Option Bool :=
  match searchFrom matchExemptAt text with
  | none => (none, none)
  | some line =>
    let ptor0 : Option Bool :=
      if containsSub negPtorPhrase line then some false
      else if containsSub barePtorPhrase line then some true
      else none
    let ptor : Option Bool :=
      if containsSub parenNotPtor line then some false else ptor0
    -- maagar is initialized to None in the source; at the elif branch it
    -- is still None, so the "if maagar is None" guard is kept verbatim.
    let maagar0 : Option Bool := none
    let maagar : Option Bool :=
      if containsSub notRelevantPhrase line && containsSub maagarPhrase line then some false
      else if containsSub maagarPhrase line then
        (if maagar0.isNone then some true else maagar0)
      else maagar0
    (ptor, maagar)

/-! ## parse_service_period (src/app.py lines 62-72)

re.search(r"^\s*(\S+)\s*-\s*(\S+)\s*$", text.strip()).  On the stripped
text the anchors force a match at position 0 reaching the end.  The
greedy (\S+) first takes the whole maximal non-whitespace run a0; the
hyphen is then looked for right after the whitespace run following a0,
and on failure the engine backtracks (\S+) one character at a time, so
hyphens inside a0 are tried from the rightmost to position 1.  After
the hyphen, \s*(\S+)\s*$ succeeds exactly when the rest, less leading
whitespace, is a non-empty run with no whitespace (the text is
stripped, so the match must reach the end). -/

/-- The \s*(\S+)\s*$ tail: the remainder after the hyphen, less leading
    whitespace, provided it is non-empty and free of whitespace. -/
def secondTok (r : List Char) : Option (List Char) :=
  if (r.dropWhile isSpaceChar).isEmpty then none
  else if (r.dropWhile isSpaceChar).any isSpaceChar then none
  else some (r.dropWhile isSpaceChar)

/-- Backtracking of the greedy first (\S+) over the first token run:
    the first component is the reversed first run as so far unconsumed,
    the second the text after the candidate position.  A candidate needs
    a hyphen at the position and a non-empty remaining group 1. -/
def shrinkScan : List Char → List Char → Option (List Char × List Char)
  | [], _ => none
  | c :: preRev, post =>
    if c == '-' && !preRev.isEmpty then
      match secondTok post with
      | some b => some (preRev.reverse, b)
      | none => shrinkScan preRev (c :: post)
    else shrinkScan preRev (c :: post)

def pspShrink (a0 tl : List Char) : List Char × List Char :=
  match shrinkScan a0.reverse tl with
  | some ab => ab
  | none => ([], [])

/-- The candidate with group 1 = the whole first token run: the hyphen
    must sit right after the whitespace run following it; on failure the
    engine backtracks into the run (pspShrink). -/
def pspAfterFirst (a0 tl : List Char) : List Char × List Char :=
  match stripLit ['-'] (tl.dropWhile isSpaceChar) with
  | some r =>
    match secondTok r with
    | some b => (a0, b)
    | none => pspShrink a0 tl
  | none => pspShrink a0 tl

def parse_service_period (input : List Char) : List Char × List Char :=
  let s := stripChars input
  if (s.takeWhile notSpaceChar).isEmpty then ([], [])
  else pspAfterFirst (s.takeWhile notSpaceChar) (s.dropWhile notSpaceChar)

/-! ## parse_job_info (src/app.py lines 155-232)

The HTML document handed to BeautifulSoup is modelled as the sequence
of its meta tags; soup.find("meta", property="og:description") is the
first tag whose property attribute is og:description.  The Python
argument html_content is a string or None, and the falsy cases (None
and the empty string) are both modelled by Option.none. -/

structure MetaTag where
  property : List Char
  content : List Char
deriving DecidableEq, Repr

structure HtmlDoc where
  metas : List MetaTag
deriving DecidableEq, Repr

def ogDescProp : List Char := "og:description".toList

def ogDescription (doc : HtmlDoc) : Option (List Char) :=
  (doc.metas.find? (fun m => m.property == ogDescProp)).map MetaTag.content

/-- One output row (src/app.py lines 213-230).  Field names transcribe
    the Hebrew column names of the source dictionary. -/
structure JobRecord where
  adNumber : List Char         -- "מספר מודעה"
  role : List Char             -- "תפקיד"
  sugYehida : List Char        -- "סוג יחידה"
  area : List Char             -- "אזור בארץ"
  qualifications : List Char   -- "כישורים נדרשים"
  unitInfo : List Char         -- "פרטים על היחידה"
  serviceTerms : List Char     -- "תנאי שירות"
  servicePeriodRaw : List Char -- "תקופת שירות (Raw)"
  monthStart : List Char       -- "חודש התחלה"
  monthEnd : List Char         -- "חודש סיום"
  immediate : List Char        -- "גיוס מיידי"
  recruitmentType : List Char  -- "סוג גיוס"
  ptorStr : List Char          -- "מתאים לבעלי פטור"
  maagarStr : List Char        -- "מתאים למשוייכים למאגר"
  link : List Char             -- "קישור"
deriving DecidableEq, Repr

/-- Rendering of the tri-state flags as strings (lines 194-206). -/
def optBoolStr : Option Bool → List Char
  | some true => yesStr
  | some false => noStr
  | none => []

/-- The unit-type field after the trailing-area trim of lines 179-181. -/
def sugYehidaField (text : List Char) : List Char :=
  if containsSub areaLabel (parse_between text unitTypeMarker) then
    stripChars (splitFirst areaLabel (parse_between text unitTypeMarker))
  else parse_between text unitTypeMarker

/-- The row built for one role (lines 213-230); every field except the
    role is computed from the text and the post identifier alone. -/
def mkRow (base : List Char) (postId : Nat) (text : List Char) (role : List Char) :
    JobRecord where
  adNumber := parse_ad_number text
  role := role
  sugYehida := sugYehidaField text
  area := parse_between text areaMarker
  qualifications := parse_section text qualTitle
  unitInfo := parse_section text unitInfoTitle
  serviceTerms := parse_section text serviceTermsTitle
  servicePeriodRaw := parse_between text periodMarker
  monthStart := (parse_service_period (parse_between text periodMarker)).1
  monthEnd := (parse_service_period (parse_between text periodMarker)).2
  immediate := if containsSub alarmGlyph text then yesStr else noStr
  recruitmentType := if containsSub recruitPhrase text then recruitLabel else []
  ptorStr := optBoolStr (parse_exempt_line text).1
  maagarStr := optBoolStr (parse_exempt_line text).2
  link := base ++ (Nat.repr postId).toList

/-- The role fan-out list: the sentinel substitution of lines 208-209. -/
def rolesOrSentinel (text : List Char) : List (List Char) :=
  if (parse_roles text).isEmpty then [sentinelRole] else parse_roles text

def parse_job_info (base : List Char) (postId : Nat) (html : Option HtmlDoc) :
    Option (List JobRecord) :=
  html.bind fun doc =>
  (ogDescription doc).bind fun text =>
  if parse_ad_number text = notFoundStr then none
  else some ((rolesOrSentinel text).map (mkRow base postId text))

/-! ## The earliest-stop property of the non-greedy capture -/

/-- The capture is a prefix of the text whose end position is the
    nearest position satisfying the terminator lookahead. -/
def IsEarliestStop (s cap : List Char) : Prop :=
  cap <+: s ∧ termStop (s.drop cap.length) = true ∧
    ∀ k, k < cap.length → termStop (s.drop k) = false

/-! ## The ad-number validity gate -/

/-- The body contains the ad-number marker: the fixed label phrase (with
    flexible whitespace) followed by a hash sign and one or more digits. -/
def hasAdMarker (t : List Char) : Prop :=
  ∃ pre w1 w2 d post,
    t = pre ++ "מודעה".toList ++ w1 ++ "מספר".toList ++ w2 ++ '#' :: (d ++ post) ∧
    w1.all isSpaceChar = true ∧ w2.all isSpaceChar = true ∧
    d ≠ [] ∧ d.all isDigitChar = true

/-! ## Claims -/

/-- A text whose only class character is the bare skin-tone modifier
    U+1F3FB (neither full glyph occurs in it). -/
def textC10 : List Char := "🏻 רלוונטי גם לבעלי \"פטור\"".toList

/-- The non-role fields of two records agree. -/
def sameNonRole (r r2 : JobRecord) : Prop :=
  r.adNumber = r2.adNumber ∧ r.sugYehida = r2.sugYehida ∧ r.area = r2.area ∧
  r.qualifications = r2.qualifications ∧ r.unitInfo = r2.unitInfo ∧
  r.serviceTerms = r2.serviceTerms ∧ r.servicePeriodRaw = r2.servicePeriodRaw ∧
  r.monthStart = r2.monthStart ∧ r.monthEnd = r2.monthEnd ∧
  r.immediate = r2.immediate ∧ r.recruitmentType = r2.recruitmentType ∧
  r.ptorStr = r2.ptorStr ∧ r.maagarStr = r2.maagarStr ∧ r.link = r2.link

def c1Text : List Char := "שלום עולם".toList

def c1Doc : HtmlDoc := ⟨[⟨ogDescProp, c1Text⟩]⟩

def sampleText : List Char :=
  "⬅️ דרושים: ** נהג\n** טבח\n⬅️ כישורים נדרשים: רישיון נהיגה\nמודעה מספר #1234".toList

def sampleDoc : HtmlDoc := ⟨[⟨ogDescProp, sampleText⟩]⟩

def c3Text : List Char := "מודעה מספר #77 ⏰".toList

def c3Doc : HtmlDoc := ⟨[⟨ogDescProp, c3Text⟩]⟩

def c8Text : List Char := "מודעה מספר #3\nסוג יחידה: חי\"ר אזור בארץ: דרום".toList

def c8Doc : HtmlDoc := ⟨[⟨ogDescProp, c8Text⟩]⟩

def c9Doc : HtmlDoc := ⟨[⟨"og:title".toList, "כותרת".toList⟩]⟩

def c9DocB : HtmlDoc := ⟨[⟨"og:title".toList, "כותרת".toList⟩, ⟨ogDescProp, c3Text⟩]⟩

/-! ## C5: the exemption and pool flag rules -/

/-- Modelled from the spec: the lines of the text, split at newlines. -/
def splitLines : List Char → List (List Char)
  | [] => [[]]
  | c :: rest =>
    if c = '\n' then [] :: splitLines rest
    else
      match splitLines rest with
      | l :: ls => (c :: l) :: ls
      | [] => [[c]]

/-- Modelled from the spec: a line qualifies when it contains a
    prohibition or hand glyph together with the word פטור or מאגר. -/
def lineQualifies (L : List Char) : Bool :=
  L.any classChar && (containsSub ptorWord L || containsSub maagarWord L)

/-- The exemption cascade of the claim: the negated phrase forces
    false, otherwise the bare phrase forces true, and the parenthetical
    forces false regardless of the earlier matches. -/
def ptorRule (L : List Char) : Option Bool :=
  if containsSub parenNotPtor L then some false
  else if containsSub negPtorPhrase L then some false
  else if containsSub barePtorPhrase L then some true
  else none

/-- The pool cascade of the claim: "not relevant" together with the
    affiliation phrase gives false, otherwise the bare affiliation
    phrase gives true. -/
def maagarRule (L : List Char) : Option Bool :=
  if containsSub notRelevantPhrase L && containsSub maagarPhrase L then some false
  else if containsSub maagarPhrase L then some true
  else none

/-- Modelled from the spec: find the first qualifying line of the text
    and apply the phrase rules to that whole line. -/
def parse_exempt_spec (t : List Char) : Option Bool × Option Bool :=
  match (splitLines t).find? lineQualifies with
  | none => (none, none)
  | some L => (ptorRule L, maagarRule L)

/-- A single line in which the negated-exemption phrase stands before
    the glyph; the matched segment of the code starts at the glyph and
    misses it. -/
def textC5 : List Char := "לא רלוונטי לבעלי \"פטור\" ⛔ מאגר".toList

def textC5w : List Char := "⛔ לא רלוונטי לבעלי \"פטור\" / משוייכים ל\"מאגר\"".toList

/-! ## C4: the field and section extractor terminators -/

/-- Modelled from the spec: a dash-rule line, a line consisting solely
    of one or more dash characters. -/
def specDashLine (rest : List Char) : Bool :=
  !(rest.takeWhile (· != '\n')).isEmpty && (rest.takeWhile (· != '\n')).all (· == '-')

/-- Modelled from the spec: the claimed terminator set of a capture —
    the next arrow marker, a dash-rule line, or the end of the text. -/
def specTermStop (s : List Char) : Bool :=
  match s with
  | [] => true
  | c :: rest => c == '\n' && (listStartsWith arrowMark rest || specDashLine rest)

def captureUntilSpecTerm : List Char → List Char
  | [] => []
  | c :: rest => if specTermStop (c :: rest) then [] else c :: captureUntilSpecTerm rest

/-- Modelled from the spec: capture from the first occurrence of the
    marker with an optional colon, up to the nearest claimed
    terminator, trimmed. -/
def betweenSpecAt (marker : List Char) (s : List Char) : Option (List Char) :=
  match stripLit marker s with
  | none => none
  | some s1 =>
    match stripLit [':'] (dropSpaces s1) with
    | some s2 => some (stripChars (captureUntilSpecTerm (dropSpaces s2)))
    | none => some (stripChars (captureUntilSpecTerm (dropSpaces s1)))

def between_spec (text marker : List Char) : List Char :=
  (searchFrom (betweenSpecAt marker) text).getD []

/-- A capture whose nearest dash line carries trailing content: the
    code's terminator \n-+\s fires at it, the claimed dash-rule
    terminator does not. -/
def textC4 : List Char := "סוג יחידה: אבג\n--- דף\n⬅️ כישורים נדרשים: א".toList

def textC4w : List Char := "סוג יחידה: אבג\n⬅️ X".toList

def restC4w : List Char := "אבג\n⬅️ X".toList

/-! ## C6: the service-period parser -/

/-- Modelled from the spec: the trimmed input consists of exactly two
    non-empty whitespace-free tokens separated by a hyphen with
    optional whitespace around it. -/
def twoTokenShape (t a b : List Char) : Prop :=
  ∃ w1 w2, stripChars t = a ++ w1 ++ '-' :: (w2 ++ b) ∧
    a ≠ [] ∧ b ≠ [] ∧ a.all notSpaceChar = true ∧ b.all notSpaceChar = true ∧
    w1.all isSpaceChar = true ∧ w2.all isSpaceChar = true

/-! ## Proofs -/

theorem bulletFallback_length {l : List Char} {c : Char} {rest : List Char}
    (h : bulletFallback l = some (c, rest)) : rest.length < l.length := by
  induction l with
  | nil => simp [bulletFallback] at h
  | cons x xs ih =>
    simp only [bulletFallback] at h
    cases hx : bulletFallback xs with
    | some r =>
      rw [hx] at h
      cases r with
      | mk rc rrest =>
        have h2 : rc = c ∧ rrest = rest := by simpa using h
        have := ih (h2.1 ▸ h2.2 ▸ hx)
        simp only [List.length_cons]
        omega
    | none =>
      rw [hx] at h
      by_cases hc : x = '\n'
      · simp [hc] at h
      · simp only [hc, if_false] at h
        have h2 : x = c ∧ xs = rest := by simpa using h
        cases h2.2
        simp

/-- The first character surviving dropWhile fails the predicate. -/
theorem dropWhile_head_neg {p : Char → Bool} {l : List Char} {c : Char} {rest : List Char}
    (h : l.dropWhile p = c :: rest) : p c = false := by
  have hh := List.head?_dropWhile_not p l
  rw [h] at hh
  simpa using hh

theorem matchBulletAt_length {s g rem : List Char}
    (h : matchBulletAt s = some (g, rem)) : rem.length < s.length := by
  match s with
  | [] => simp [matchBulletAt] at h
  | [c] => simp [matchBulletAt] at h
  | c1 :: c2 :: rest =>
    simp only [matchBulletAt] at h
    by_cases hstar : c1 = '*' ∧ c2 = '*'
    · rw [if_pos hstar] at h
      cases hd : rest.dropWhile isSpaceChar with
      | cons c e2 =>
        rw [hd] at h
        have hlen : (c :: e2).length ≤ rest.length := by
          rw [← hd]; exact (List.dropWhile_sublist _).length_le
        have hrem : rem = (c :: e2).drop ((c :: e2).takeWhile (· != '\n')).length := by
          have h2 : (c :: e2).takeWhile (· != '\n') = g ∧
              (c :: e2).drop ((c :: e2).takeWhile (· != '\n')).length = rem := by
            simpa using h
          exact h2.2.symm
        have hc : (c != '\n') = true := by
          have hns : isSpaceChar c = false := dropWhile_head_neg hd
          simp only [bne_iff_ne, ne_eq]
          intro hcn
          rw [hcn] at hns
          simp [isSpaceChar] at hns
        have htw : ((c :: e2).takeWhile (· != '\n')).length ≥ 1 := by
          rw [List.takeWhile_cons, hc]
          simp
        have hdl : rem.length = (c :: e2).length - ((c :: e2).takeWhile (· != '\n')).length := by
          rw [hrem, List.length_drop]
        simp only [List.length_cons] at hlen hdl ⊢
        omega
      | nil =>
        rw [hd] at h
        cases hb : bulletFallback (rest.takeWhile isSpaceChar) with
        | some p =>
          rw [hb] at h
          cases p with
          | mk ch after =>
            have h2 : [ch] = g ∧ after = rem := by simpa using h
            cases h2.2
            have h3 := bulletFallback_length hb
            have h4 : (rest.takeWhile isSpaceChar).length ≤ rest.length :=
              (List.takeWhile_sublist _).length_le
            simp only [List.length_cons]
            omega
        | none => rw [hb] at h; exact absurd h (by simp)
    · rw [if_neg hstar] at h
      exact absurd h (by simp)

/-! ## Lemmas about the scanning combinators -/

theorem listStartsWith_iff {p s : List Char} : listStartsWith p s = true ↔ p <+: s := by
  induction p generalizing s with
  | nil => simp [listStartsWith]
  | cons a ps ih =>
    cases s with
    | nil =>
      simp only [listStartsWith]
      constructor
      · intro h; exact absurd h (by simp)
      · intro h; exact absurd (List.eq_nil_of_prefix_nil h) (by simp)
    | cons c cs =>
      simp [listStartsWith, List.cons_prefix_cons, ih, Bool.and_eq_true, beq_iff_eq]

theorem containsSub_iff {p s : List Char} : containsSub p s = true ↔ p <:+: s := by
  induction s with
  | nil =>
    simp only [containsSub, listStartsWith_iff]
    constructor
    · intro h; exact h.isInfix
    · intro h; exact (List.infix_nil.mp h) ▸ List.nil_prefix
  | cons c cs ih =>
    simp only [containsSub, Bool.or_eq_true, listStartsWith_iff, ih]
    constructor
    · rintro (h | h)
      · exact h.isInfix
      · exact List.infix_cons h
    · intro h
      rcases List.infix_cons_iff.mp h with h | h
      · exact Or.inl h
      · exact Or.inr h

/-- Substring search for a single character is list membership. -/
theorem containsSub_singleton_iff {c : Char} {s : List Char} :
    containsSub [c] s = true ↔ c ∈ s := by
  rw [containsSub_iff]
  constructor
  · rintro ⟨u, v, rfl⟩
    simp
  · intro h
    rcases List.append_of_mem h with ⟨u, v, rfl⟩
    exact ⟨u, v, by simp⟩

theorem stripLit_some_iff {p s r : List Char} : stripLit p s = some r ↔ s = p ++ r := by
  induction p generalizing s with
  | nil => simp [stripLit, eq_comm]
  | cons a ps ih =>
    cases s with
    | nil => simp [stripLit]
    | cons c cs =>
      simp only [stripLit, List.cons_append, List.cons.injEq]
      by_cases hac : a = c
      · subst hac; simp [ih]
      · simp only [if_neg hac]
        constructor
        · intro h; exact absurd h (by simp)
        · rintro ⟨hca, _⟩; exact absurd hca.symm hac

theorem searchFrom_eq_none_iff {α : Type} {f : List Char → Option α} {t : List Char} :
    searchFrom f t = none ↔ ∀ s, s <:+ t → f s = none := by
  induction t with
  | nil =>
    simp only [searchFrom]
    constructor
    · intro h s hs
      rw [List.suffix_nil.mp hs]; exact h
    · intro h; exact h [] List.nil_suffix
  | cons c rest ih =>
    simp only [searchFrom]
    cases hf : f (c :: rest) with
    | some r =>
      constructor
      · intro h; exact absurd h (by simp)
      · intro h; rw [h (c :: rest) List.suffix_rfl] at hf; exact absurd hf (by simp)
    | none =>
      rw [ih]
      constructor
      · intro h s hs
        rcases List.suffix_cons_iff.mp hs with h1 | h1
        · rw [h1]; exact hf
        · exact h s h1
      · intro h s hs
        exact h s (hs.trans (List.suffix_cons _ _))

theorem searchFrom_some {α : Type} {f : List Char → Option α} {t : List Char} {r : α}
    (h : searchFrom f t = some r) : ∃ s, s <:+ t ∧ f s = some r := by
  induction t with
  | nil => exact ⟨[], List.suffix_rfl, h⟩
  | cons c rest ih =>
    simp only [searchFrom] at h
    cases hf : f (c :: rest) with
    | some r2 =>
      rw [hf] at h
      exact ⟨c :: rest, List.suffix_rfl, hf.trans h⟩
    | none =>
      rw [hf] at h
      rcases ih h with ⟨s, hs, hfs⟩
      exact ⟨s, hs.trans (List.suffix_cons _ _), hfs⟩

theorem takeWhile_append_of_all {p : Char → Bool} {a l : List Char} (h : a.all p = true) :
    (a ++ l).takeWhile p = a ++ l.takeWhile p := by
  induction a with
  | nil => simp
  | cons c cs ih =>
    simp only [List.all_cons, Bool.and_eq_true] at h
    simp [List.takeWhile_cons, h.1, ih h.2]

theorem dropWhile_append_of_all {p : Char → Bool} {a l : List Char} (h : a.all p = true) :
    (a ++ l).dropWhile p = l.dropWhile p := by
  induction a with
  | nil => simp
  | cons c cs ih =>
    simp only [List.all_cons, Bool.and_eq_true] at h
    simp [List.dropWhile_cons, h.1, ih h.2]

theorem takeWhile_eq_self_of_all {p : Char → Bool} {l : List Char} (h : l.all p = true) :
    l.takeWhile p = l := by
  have := @takeWhile_append_of_all p l [] h
  simpa using this

theorem dropWhile_eq_nil_of_all {p : Char → Bool} {l : List Char} (h : l.all p = true) :
    l.dropWhile p = [] := by
  have := @dropWhile_append_of_all p l [] h
  simpa using this

theorem all_takeWhile {p : Char → Bool} {l : List Char} : (l.takeWhile p).all p = true := by
  induction l with
  | nil => simp
  | cons c cs ih =>
    rw [List.takeWhile_cons]
    cases hp : p c with
    | true => simp [hp, ih]
    | false => simp

theorem any_eq_false_of_all_not {p : Char → Bool} {l : List Char}
    (h : l.all (fun c => !p c) = true) : l.any p = false := by
  rw [List.all_eq_true] at h
  rw [← Bool.not_eq_true, List.any_eq_true]
  rintro ⟨c, hc, hpc⟩
  have := h c hc
  rw [hpc] at this
  exact absurd this (by simp)

theorem all_not_of_any_eq_false {p : Char → Bool} {l : List Char}
    (h : l.any p = false) : l.all (fun c => !p c) = true := by
  rw [List.all_eq_true]
  intro c hc
  cases hpc : p c with
  | true =>
    have : l.any p = true := List.any_eq_true.mpr ⟨c, hc, hpc⟩
    rw [h] at this; exact absurd this (by simp)
  | false => simp [hpc]

/-! ## Lemmas about stripping and splitting -/

theorem stripEnd_front (s : List Char) : stripEnd s <+: s := by
  refine ⟨(s.reverse.takeWhile isSpaceChar).reverse, ?_⟩
  rw [stripEnd, ← List.reverse_append, List.takeWhile_append_dropWhile, List.reverse_reverse]

theorem stripChars_within (s : List Char) : stripChars s <:+: s := by
  have h1 : stripChars s <+: s.dropWhile isSpaceChar := stripEnd_front _
  have h2 : s.dropWhile isSpaceChar <:+ s := List.dropWhile_suffix _
  exact h1.isInfix.trans h2.isInfix

theorem splitFirst_front (pat : List Char) (s : List Char) : splitFirst pat s <+: s := by
  induction s with
  | nil => simp [splitFirst]
  | cons c rest ih =>
    rw [splitFirst]
    by_cases h : listStartsWith pat (c :: rest) = true
    · simp [h]
    · rw [if_neg h, List.cons_prefix_cons]
      exact ⟨rfl, ih⟩

theorem splitFirst_not_contains {pat : List Char} (hpat : pat ≠ []) (s : List Char) :
    containsSub pat (splitFirst pat s) = false := by
  induction s with
  | nil =>
    rw [← Bool.not_eq_true, splitFirst, containsSub, listStartsWith_iff]
    intro h
    exact hpat (List.eq_nil_of_prefix_nil h)
  | cons c rest ih =>
    rw [splitFirst]
    by_cases h : listStartsWith pat (c :: rest) = true
    · rw [if_pos h, ← Bool.not_eq_true, containsSub, listStartsWith_iff]
      intro hp
      exact hpat (List.eq_nil_of_prefix_nil hp)
    · rw [if_neg h, ← Bool.not_eq_true, containsSub, Bool.or_eq_true]
      rintro (hc | hc)
      · apply h
        rw [listStartsWith_iff] at hc ⊢
        cases pat with
        | nil => exact absurd rfl hpat
        | cons p ps =>
          rw [List.cons_prefix_cons] at hc ⊢
          exact ⟨hc.1, hc.2.trans (splitFirst_front _ _)⟩
      · rw [ih] at hc
        exact absurd hc (by simp)

theorem not_contains_of_infix {pat u v : List Char} (h : u <:+: v)
    (hv : containsSub pat v = false) : containsSub pat u = false := by
  cases hu : containsSub pat u with
  | false => rfl
  | true =>
    have : containsSub pat v = true := containsSub_iff.mpr ((containsSub_iff.mp hu).trans h)
    rw [hv] at this
    exact absurd this (by simp)

theorem captureUntilTerm_earliest (s : List Char) : IsEarliestStop s (captureUntilTerm s) := by
  induction s with
  | nil =>
    refine ⟨List.nil_prefix, ?_, ?_⟩
    · simp [captureUntilTerm, termStop]
    · intro k hk; simp [captureUntilTerm] at hk
  | cons c rest ih =>
    rw [captureUntilTerm]
    by_cases h : termStop (c :: rest) = true
    · rw [if_pos h]
      exact ⟨List.nil_prefix, by simpa using h, by intro k hk; simp at hk⟩
    · rw [if_neg h]
      have hf : termStop (c :: rest) = false := by
        cases hb : termStop (c :: rest) with
        | true => exact absurd hb h
        | false => rfl
      obtain ⟨h1, h2, h3⟩ := ih
      refine ⟨List.cons_prefix_cons.mpr ⟨rfl, h1⟩, ?_, ?_⟩
      · simpa [List.drop_succ_cons] using h2
      · intro k hk
        cases k with
        | zero => simpa using hf
        | succ k2 =>
          rw [List.drop_succ_cons]
          exact h3 k2 (by simpa using hk)

theorem matchAdAt_ne_none_of_shape {w1 w2 d post : List Char}
    (hw1 : w1.all isSpaceChar = true) (hw2 : w2.all isSpaceChar = true)
    (hd : d ≠ []) (hdd : d.all isDigitChar = true) :
    matchAdAt ("מודעה".toList ++ w1 ++ "מספר".toList ++ w2 ++ '#' :: (d ++ post)) ≠ none := by
  have e1 : stripLit "מודעה".toList
      ("מודעה".toList ++ w1 ++ "מספר".toList ++ w2 ++ '#' :: (d ++ post)) =
      some (w1 ++ "מספר".toList ++ w2 ++ '#' :: (d ++ post)) :=
    stripLit_some_iff.mpr rfl
  have e2 : dropSpaces (w1 ++ "מספר".toList ++ w2 ++ '#' :: (d ++ post)) =
      "מספר".toList ++ w2 ++ '#' :: (d ++ post) := by
    rw [dropSpaces, List.append_assoc, List.append_assoc, dropWhile_append_of_all hw1]
    rw [← List.append_assoc]
    exact List.dropWhile_cons_of_neg (by decide)
  have e3 : stripLit "מספר".toList ("מספר".toList ++ w2 ++ '#' :: (d ++ post)) =
      some (w2 ++ '#' :: (d ++ post)) :=
    stripLit_some_iff.mpr rfl
  have e4 : dropSpaces (w2 ++ '#' :: (d ++ post)) = '#' :: (d ++ post) := by
    rw [dropSpaces, dropWhile_append_of_all hw2]
    exact List.dropWhile_cons_of_neg (by decide)
  have e4b : ("מספר".toList ++ w2 ++ '#' :: (d ++ post)) =
      "מספר".toList ++ (w2 ++ '#' :: (d ++ post)) := List.append_assoc _ _ _
  have e5 : stripLit ['#'] ('#' :: (d ++ post)) = some (d ++ post) :=
    stripLit_some_iff.mpr rfl
  have e6 : (d ++ post).takeWhile isDigitChar = d ++ post.takeWhile isDigitChar :=
    takeWhile_append_of_all hdd
  have hne : (d ++ post.takeWhile isDigitChar).isEmpty = false := by
    cases d with
    | nil => exact absurd rfl hd
    | cons x xs => rfl
  rw [matchAdAt, e1, Option.some_bind, e2, e3, Option.some_bind, e4, e5,
    Option.some_bind, e6, if_neg (by rw [hne]; exact Bool.false_ne_true)]
  exact Option.some_ne_none _

theorem matchAdAt_shape {s ds : List Char} (h : matchAdAt s = some ds) :
    (∃ w1 w2 d post,
      s = "מודעה".toList ++ w1 ++ "מספר".toList ++ w2 ++ '#' :: (d ++ post) ∧
      w1.all isSpaceChar = true ∧ w2.all isSpaceChar = true ∧
      d ≠ [] ∧ d.all isDigitChar = true) ∧
    ds ≠ [] ∧ ds.all isDigitChar = true := by
  rw [matchAdAt] at h
  cases h1 : stripLit "מודעה".toList s with
  | none => rw [h1, Option.none_bind] at h; exact absurd h (by simp)
  | some s1 =>
    rw [h1, Option.some_bind] at h
    cases h2 : stripLit "מספר".toList (dropSpaces s1) with
    | none => rw [h2, Option.none_bind] at h; exact absurd h (by simp)
    | some s2 =>
      rw [h2, Option.some_bind] at h
      cases h3 : stripLit ['#'] (dropSpaces s2) with
      | none => rw [h3, Option.none_bind] at h; exact absurd h (by simp)
      | some rest =>
        rw [h3, Option.some_bind] at h
        by_cases h4 : (rest.takeWhile isDigitChar).isEmpty = true
        · rw [if_pos h4] at h; exact absurd h (by simp)
        · rw [if_neg h4] at h
          have hds : ds = rest.takeWhile isDigitChar := (Option.some.inj h).symm
          have hne : ds ≠ [] := by
            rw [hds]; intro hnil
            exact h4 (by rw [hnil]; rfl)
          have hall : ds.all isDigitChar = true := by rw [hds]; exact all_takeWhile
          have hs : s = "מודעה".toList ++ s1 := stripLit_some_iff.mp h1
          have hs1 : dropSpaces s1 = "מספר".toList ++ s2 := stripLit_some_iff.mp h2
          have hs2 : dropSpaces s2 = '#' :: rest := by
            have := stripLit_some_iff.mp h3
            simpa using this
          obtain ⟨w1, hw1all, hsplit1⟩ :
              ∃ w, w.all isSpaceChar = true ∧ s1 = w ++ ("מספר".toList ++ s2) := by
            refine ⟨s1.takeWhile isSpaceChar, all_takeWhile, ?_⟩
            conv_lhs => rw [← List.takeWhile_append_dropWhile isSpaceChar s1]
            rw [← dropSpaces, hs1]
          obtain ⟨w2, hw2all, hsplit2⟩ :
              ∃ w, w.all isSpaceChar = true ∧ s2 = w ++ ('#' :: rest) := by
            refine ⟨s2.takeWhile isSpaceChar, all_takeWhile, ?_⟩
            conv_lhs => rw [← List.takeWhile_append_dropWhile isSpaceChar s2]
            rw [← dropSpaces, hs2]
          obtain ⟨dr, hrest⟩ : ∃ dr, rest = ds ++ dr := by
            refine ⟨rest.dropWhile isDigitChar, ?_⟩
            rw [hds, List.takeWhile_append_dropWhile]
          refine ⟨⟨w1, w2, ds, dr, ?_, hw1all, hw2all, hne, hall⟩, hne, hall⟩
          rw [hs, hsplit1, hsplit2, hrest]
          simp [List.append_assoc]

theorem hasAdMarker_iff {t : List Char} :
    hasAdMarker t ↔ searchFrom matchAdAt t ≠ none := by
  constructor
  · rintro ⟨pre, w1, w2, d, post, ht, hw1, hw2, hd, hdd⟩
    intro hnone
    rw [searchFrom_eq_none_iff] at hnone
    apply @matchAdAt_ne_none_of_shape w1 w2 d post hw1 hw2 hd hdd
    apply hnone
    refine ⟨pre, ?_⟩
    rw [ht]; simp [List.append_assoc]
  · intro hne
    cases hsf : searchFrom matchAdAt t with
    | none => exact absurd hsf hne
    | some ds =>
      rcases searchFrom_some hsf with ⟨s, hs, hf⟩
      rcases matchAdAt_shape hf with ⟨⟨w1, w2, d, post, hshape, hw1, hw2, hd, hdd⟩, _, _⟩
      rcases hs with ⟨pre, hpre⟩
      exact ⟨pre, w1, w2, d, post, by rw [← hpre, hshape]; simp [List.append_assoc],
        hw1, hw2, hd, hdd⟩

theorem parse_ad_number_eq_notFound_iff {t : List Char} :
    parse_ad_number t = notFoundStr ↔ searchFrom matchAdAt t = none := by
  constructor
  · intro h
    cases hsf : searchFrom matchAdAt t with
    | none => rfl
    | some ds =>
      rcases searchFrom_some hsf with ⟨s, _, hf⟩
      rcases matchAdAt_shape hf with ⟨_, hne, hall⟩
      rw [parse_ad_number, hsf] at h
      simp only [Option.getD_some] at h
      have hlam : isDigitChar 'ל' = true := by
        have hmem : 'ל' ∈ ds := by
          rw [h]; decide
        exact List.all_eq_true.mp hall _ hmem
      exact absurd hlam (by decide)
  · intro h
    rw [parse_ad_number, h]
    rfl

/-! ## Unfolding parse_job_info -/

theorem parse_job_info_some {base : List Char} {pid : Nat} {doc : HtmlDoc} {text : List Char}
    (hog : ogDescription doc = some text)
    (hgate : ¬ parse_ad_number text = notFoundStr) :
    parse_job_info base pid (some doc) =
      some ((rolesOrSentinel text).map (mkRow base pid text)) := by
  rw [parse_job_info, Option.some_bind, hog, Option.some_bind, if_neg hgate]

theorem parse_job_info_some_inv {base : List Char} {pid : Nat} {doc : HtmlDoc}
    {recs : List JobRecord} (h : parse_job_info base pid (some doc) = some recs) :
    ∃ text, ogDescription doc = some text ∧ ¬ parse_ad_number text = notFoundStr ∧
      recs = (rolesOrSentinel text).map (mkRow base pid text) := by
  rw [parse_job_info, Option.some_bind] at h
  cases hog : ogDescription doc with
  | none => rw [hog, Option.none_bind] at h; exact absurd h (by simp)
  | some text =>
    rw [hog, Option.some_bind] at h
    by_cases hgate : parse_ad_number text = notFoundStr
    · rw [if_pos hgate] at h; exact absurd h (by simp)
    · rw [if_neg hgate] at h
      exact ⟨text, rfl, hgate, (Option.some.inj h).symm⟩

/-- C1: a post body that contains no ad-number marker (the fixed label
    phrase followed by a hash sign and one or more digits) produces no
    records: parse_job_info returns none, so the post is dropped rather
    than emitted with an unresolved ad number. -/
theorem claim_C1 (base : List Char) (pid : Nat) (doc : HtmlDoc) (text : List Char)
    (hog : ogDescription doc = some text) (hno : ¬ hasAdMarker text) :
    parse_job_info base pid (some doc) = none := by
  have h1 : searchFrom matchAdAt text = none := by
    cases hsf : searchFrom matchAdAt text with
    | none => rfl
    | some ds =>
      exact absurd (hasAdMarker_iff.mpr (by rw [hsf]; exact Option.some_ne_none _)) hno
  rw [parse_job_info, Option.some_bind, hog, Option.some_bind,
    if_pos (parse_ad_number_eq_notFound_iff.mpr h1)]

theorem claim_C1_witness : parse_job_info "L".toList 5 (some c1Doc) = none :=
  claim_C1 "L".toList 5 c1Doc c1Text rfl
    (fun hm => (hasAdMarker_iff.mp hm) (by decide))

/-- C2: a post body with an ad number whose roles section yields at
    least one role bullet produces exactly one record per role, in
    source order, all records agreeing on every non-role field and on
    the link built from the base URL and the post identifier. -/
theorem claim_C2 (base : List Char) (pid : Nat) (doc : HtmlDoc) (text : List Char)
    (hog : ogDescription doc = some text) (had : hasAdMarker text)
    (hne : parse_roles text ≠ []) :
    ∃ recs : List JobRecord,
      parse_job_info base pid (some doc) = some recs ∧
      recs.length = (parse_roles text).length ∧
      recs.map JobRecord.role = parse_roles text ∧
      (∀ r ∈ recs, ∀ r2 ∈ recs, sameNonRole r r2) ∧
      (∀ r ∈ recs, r.link = base ++ (Nat.repr pid).toList) := by
  have hgate : ¬ parse_ad_number text = notFoundStr := by
    intro hg
    exact (hasAdMarker_iff.mp had) (parse_ad_number_eq_notFound_iff.mp hg)
  have hros : rolesOrSentinel text = parse_roles text := by
    rw [rolesOrSentinel, if_neg (fun hemp => hne (List.isEmpty_iff.mp hemp))]
  refine ⟨(parse_roles text).map (mkRow base pid text), ?_, ?_, ?_, ?_, ?_⟩
  · rw [parse_job_info_some hog hgate, hros]
  · rw [List.length_map]
  · rw [List.map_map]
    have hcomp : (JobRecord.role ∘ mkRow base pid text) = id := funext (fun r => rfl)
    rw [hcomp, List.map_id]
  · intro r hr r2 hr2
    rcases List.mem_map.mp hr with ⟨a, _, rfl⟩
    rcases List.mem_map.mp hr2 with ⟨b, _, rfl⟩
    exact ⟨rfl, rfl, rfl, rfl, rfl, rfl, rfl, rfl, rfl, rfl, rfl, rfl, rfl, rfl⟩
  · intro r hr
    rcases List.mem_map.mp hr with ⟨a, _, rfl⟩
    rfl

theorem claim_C2_witness :
    ∃ recs : List JobRecord,
      parse_job_info "L".toList 7 (some sampleDoc) = some recs ∧
      recs.length = (parse_roles sampleText).length ∧
      recs.map JobRecord.role = parse_roles sampleText ∧
      (∀ r ∈ recs, ∀ r2 ∈ recs, sameNonRole r r2) ∧
      (∀ r ∈ recs, r.link = "L".toList ++ (Nat.repr 7).toList) :=
  claim_C2 "L".toList 7 sampleDoc sampleText rfl
    (hasAdMarker_iff.mpr (by decide)) (by decide)

/-- C3: a post body with an ad number but no extracted roles produces
    exactly one record, whose role is the fixed sentinel placeholder
    string. -/
theorem claim_C3 (base : List Char) (pid : Nat) (doc : HtmlDoc) (text : List Char)
    (hog : ogDescription doc = some text) (had : hasAdMarker text)
    (hroles : parse_roles text = []) :
    parse_job_info base pid (some doc) = some [mkRow base pid text sentinelRole] ∧
    (mkRow base pid text sentinelRole).role = sentinelRole := by
  have hgate : ¬ parse_ad_number text = notFoundStr := by
    intro hg
    exact (hasAdMarker_iff.mp had) (parse_ad_number_eq_notFound_iff.mp hg)
  refine ⟨?_, rfl⟩
  rw [parse_job_info_some hog hgate, rolesOrSentinel, if_pos (by rw [hroles]; rfl)]
  rfl

theorem claim_C3_witness :
    parse_job_info "L".toList 9 (some c3Doc) = some [mkRow "L".toList 9 c3Text sentinelRole] ∧
    (mkRow "L".toList 9 c3Text sentinelRole).role = sentinelRole :=
  claim_C3 "L".toList 9 c3Doc c3Text rfl
    (hasAdMarker_iff.mpr (by decide)) (by decide)

/-- C7: for a post that produced records, every record carries
    immediacy "כן" exactly when the alarm-clock glyph occurs in the
    body, and "לא" when it does not. -/
theorem claim_C7 (base : List Char) (pid : Nat) (doc : HtmlDoc) (text : List Char)
    (recs : List JobRecord)
    (hog : ogDescription doc = some text)
    (h : parse_job_info base pid (some doc) = some recs) :
    ∀ r ∈ recs, (r.immediate = yesStr ↔ '⏰' ∈ text) ∧ ('⏰' ∉ text → r.immediate = noStr) := by
  rcases parse_job_info_some_inv h with ⟨text2, hog2, _, hrecs⟩
  have htt : text2 = text := by
    rw [hog2] at hog; exact Option.some.inj hog
  subst htt
  intro r hr
  rw [hrecs] at hr
  rcases List.mem_map.mp hr with ⟨a, _, rfl⟩
  show ((if containsSub alarmGlyph text2 then yesStr else noStr) = yesStr ↔ '⏰' ∈ text2) ∧
    ('⏰' ∉ text2 → (if containsSub alarmGlyph text2 then yesStr else noStr) = noStr)
  cases hc : containsSub alarmGlyph text2 with
  | true =>
    have hmem : '⏰' ∈ text2 := (@containsSub_singleton_iff '⏰' text2).mp hc
    exact ⟨by simp [hmem], fun hno => absurd hmem hno⟩
  | false =>
    have hmem : ¬ '⏰' ∈ text2 := fun hm => by
      have h2 : containsSub alarmGlyph text2 = true :=
        (@containsSub_singleton_iff '⏰' text2).mpr hm
      rw [hc] at h2
      exact absurd h2 (by simp)
    refine ⟨⟨fun hy => absurd hy (by decide), fun hm => absurd hm hmem⟩, fun _ => rfl⟩

theorem claim_C7_witness :
    ((mkRow "L".toList 9 c3Text sentinelRole).immediate = yesStr ↔ '⏰' ∈ c3Text) ∧
    '⏰' ∈ c3Text :=
  ⟨(claim_C7 "L".toList 9 c3Doc c3Text [mkRow "L".toList 9 c3Text sentinelRole] rfl
      (by decide) (mkRow "L".toList 9 c3Text sentinelRole) (by simp)).1,
    by decide⟩

/-- C8: when the extracted unit-type value contains the literal area
    label, the emitted unit-type field is that value truncated at the
    first occurrence of the label and trimmed, so no emitted unit-type
    field contains the area label. -/
theorem claim_C8 (base : List Char) (pid : Nat) (doc : HtmlDoc) (text : List Char)
    (recs : List JobRecord)
    (hog : ogDescription doc = some text)
    (h : parse_job_info base pid (some doc) = some recs)
    (hlab : containsSub areaLabel (parse_between text unitTypeMarker) = true) :
    ∀ r ∈ recs,
      r.sugYehida = stripChars (splitFirst areaLabel (parse_between text unitTypeMarker)) ∧
      containsSub areaLabel r.sugYehida = false := by
  rcases parse_job_info_some_inv h with ⟨text2, hog2, _, hrecs⟩
  have htt : text2 = text := by
    rw [hog2] at hog; exact Option.some.inj hog
  subst htt
  intro r hr
  rw [hrecs] at hr
  rcases List.mem_map.mp hr with ⟨a, _, rfl⟩
  show sugYehidaField text2 = stripChars (splitFirst areaLabel (parse_between text2 unitTypeMarker)) ∧
    containsSub areaLabel (sugYehidaField text2) = false
  rw [sugYehidaField, if_pos hlab]
  refine ⟨rfl, ?_⟩
  exact not_contains_of_infix (stripChars_within _) (splitFirst_not_contains (by decide) _)

theorem claim_C8_witness :
    (mkRow "L".toList 3 c8Text sentinelRole).sugYehida =
      stripChars (splitFirst areaLabel (parse_between c8Text unitTypeMarker)) ∧
    containsSub areaLabel (mkRow "L".toList 3 c8Text sentinelRole).sugYehida = false :=
  claim_C8 "L".toList 3 c8Doc c8Text
    ((rolesOrSentinel c8Text).map (mkRow "L".toList 3 c8Text)) rfl
    (parse_job_info_some rfl (by decide)) (by decide)
    (mkRow "L".toList 3 c8Text sentinelRole) (by decide)

/-- C9: parse_job_info yields no records when the HTML input is absent
    or empty, and also when the (non-empty) document has no
    og:description meta tag; when the tag is present all extraction
    depends only on its content attribute. -/
theorem claim_C9 (base : List Char) (pid : Nat) :
    parse_job_info base pid none = none ∧
    (∀ doc : HtmlDoc, ogDescription doc = none → parse_job_info base pid (some doc) = none) ∧
    (∀ d1 d2 : HtmlDoc, ∀ text : List Char,
      ogDescription d1 = some text → ogDescription d2 = some text →
      parse_job_info base pid (some d1) = parse_job_info base pid (some d2)) := by
  refine ⟨rfl, ?_, ?_⟩
  · intro doc hog
    rw [parse_job_info, Option.some_bind, hog, Option.none_bind]
  · intro d1 d2 text h1 h2
    have e : ∀ d : HtmlDoc, ogDescription d = some text →
        parse_job_info base pid (some d) =
          (if parse_ad_number text = notFoundStr then none
           else some ((rolesOrSentinel text).map (mkRow base pid text))) := by
      intro d hd
      rw [parse_job_info, Option.some_bind, hd, Option.some_bind]
    rw [e d1 h1, e d2 h2]

theorem claim_C9_witness :
    parse_job_info "L".toList 4 none = none ∧
    parse_job_info "L".toList 4 (some c9Doc) = none ∧
    parse_job_info "L".toList 4 (some c9DocB) = parse_job_info "L".toList 4 (some c3Doc) := by
  refine ⟨(claim_C9 "L".toList 4).1, (claim_C9 "L".toList 4).2.1 c9Doc rfl, ?_⟩
  exact (claim_C9 "L".toList 4).2.2 c9DocB c3Doc c3Text rfl rfl

/-- C10: the character class of the exemption-line pattern holds the
    three scalar values prohibition sign, raised hand and the bare skin
    tone modifier U+1F3FB; a line whose only class character is the bare
    modifier is still selected and its phrases set the flags. -/
theorem claim_C10 :
    classChar '⛔' = true ∧ classChar '🖐' = true ∧ classChar '🏻' = true ∧
    '⛔' ∉ textC10 ∧ '🖐' ∉ textC10 ∧
    parse_exempt_line textC10 = (some true, none) := by
  decide

/-- C5 (counterexample): on a line whose phrases precede the glyph, the
    code leaves both flags unknown while the claim, which applies the
    rules to the first qualifying line, forces exemption = false. -/
theorem claim_C5_counterexample :
    parse_exempt_line textC5 = (none, none) ∧
    parse_exempt_spec textC5 = (some false, none) ∧
    parse_exempt_line textC5 ≠ parse_exempt_spec textC5 := by
  exact ⟨by decide, by decide, by decide⟩

/-- C5 (amended): parse_exempt_line applies the phrase rules, in the
    stated precedence order, to the segment running from the first
    glyph (prohibition sign, hand, or skin-tone modifier) that is
    followed on its own line by פטור or מאגר, up to the end of that
    line; phrase occurrences before the glyph are not seen.  When no
    such position exists both flags are unknown. -/
theorem claim_C5 (t : List Char) :
    (searchFrom matchExemptAt t = none → parse_exempt_line t = (none, none)) ∧
    (∀ seg, searchFrom matchExemptAt t = some seg →
      parse_exempt_line t = (ptorRule seg, maagarRule seg)) := by
  constructor
  · intro h
    rw [parse_exempt_line, h]
  · intro seg h
    rw [parse_exempt_line, h, ptorRule, maagarRule]
    cases h1 : containsSub negPtorPhrase seg <;>
    cases h2 : containsSub barePtorPhrase seg <;>
    cases h3 : containsSub parenNotPtor seg <;>
    cases h4 : containsSub notRelevantPhrase seg <;>
    cases h5 : containsSub maagarPhrase seg <;>
    simp [h1, h2, h3, h4, h5]

theorem claim_C5_witness :
    parse_exempt_line textC5w = (ptorRule textC5w, maagarRule textC5w) :=
  (claim_C5 textC5w).2 textC5w (by decide)

/-- C4 (counterexample): the code stops the capture at a newline
    followed by dashes and whitespace even when that line is not a
    dash-rule line, so it disagrees with the claimed terminator set. -/
theorem claim_C4_counterexample :
    parse_between textC4 unitTypeMarker = "אבג".toList ∧
    between_spec textC4 unitTypeMarker = "אבג\n--- דף".toList ∧
    parse_between textC4 unitTypeMarker ≠ between_spec textC4 unitTypeMarker := by
  exact ⟨by decide, by decide, by decide⟩

/-- C4 (amended): parse_between and parse_section capture from the
    first occurrence of the marker followed by a mandatory colon (with
    optional surrounding whitespace), up to and not including the
    nearest position where either a newline followed by one or more
    dashes and then a whitespace character begins, or a newline
    followed by the arrow marker begins, or the text ends (also just
    before a trailing final newline); the value is whitespace-trimmed
    (parse_section additionally deletes dash runs with their trailing
    whitespace), and the empty string is returned when the marker with
    its colon is absent. -/
theorem claim_C4 (text marker title : List Char) :
    ((∀ s, s <:+ text → afterMarkerColon marker s = none) → parse_between text marker = []) ∧
    (∀ rest, searchFrom (afterMarkerColon marker) text = some rest →
      parse_between text marker = stripChars (captureUntilTerm rest) ∧
      IsEarliestStop rest (captureUntilTerm rest)) ∧
    ((∀ s, s <:+ text → afterSectionColon title s = none) → parse_section text title = []) ∧
    (∀ rest, searchFrom (afterSectionColon title) text = some rest →
      parse_section text title = stripChars (removeDashRuns (captureUntilTerm rest)) ∧
      IsEarliestStop rest (captureUntilTerm rest)) := by
  refine ⟨?_, ?_, ?_, ?_⟩
  · intro h
    rw [parse_between, searchFrom_eq_none_iff.mpr h]
  · intro rest h
    rw [parse_between, h]
    exact ⟨rfl, captureUntilTerm_earliest rest⟩
  · intro h
    rw [parse_section, searchFrom_eq_none_iff.mpr h]
  · intro rest h
    rw [parse_section, h]
    exact ⟨rfl, captureUntilTerm_earliest rest⟩

theorem claim_C4_witness :
    parse_between textC4w unitTypeMarker = stripChars (captureUntilTerm restC4w) ∧
    IsEarliestStop restC4w (captureUntilTerm restC4w) :=
  (claim_C4 textC4w unitTypeMarker rolesTitle).2.1 restC4w (by decide)

theorem secondTok_eq_some {r b : List Char} (h : secondTok r = some b) :
    r = r.takeWhile isSpaceChar ++ b ∧ b ≠ [] ∧ b.all notSpaceChar = true := by
  rw [secondTok] at h
  by_cases h1 : (r.dropWhile isSpaceChar).isEmpty = true
  · rw [if_pos h1] at h; exact absurd h (by simp)
  · rw [if_neg h1] at h
    by_cases h2 : (r.dropWhile isSpaceChar).any isSpaceChar = true
    · rw [if_pos h2] at h; exact absurd h (by simp)
    · rw [if_neg h2] at h
      have hb : b = r.dropWhile isSpaceChar := (Option.some.inj h).symm
      refine ⟨?_, ?_, ?_⟩
      · rw [hb, List.takeWhile_append_dropWhile]
      · rw [hb]; intro hnil; exact h1 (by rw [hnil]; rfl)
      · rw [hb]
        refine all_not_of_any_eq_false ?_
        cases hx : (r.dropWhile isSpaceChar).any isSpaceChar with
        | true => exact absurd hx h2
        | false => rfl

theorem secondTok_of_shape {w2 b : List Char} (hw2 : w2.all isSpaceChar = true)
    (hb : b ≠ []) (hball : b.all notSpaceChar = true) :
    secondTok (w2 ++ b) = some b := by
  have hbd : b.dropWhile isSpaceChar = b := by
    cases b with
    | nil => rfl
    | cons x xs =>
      apply List.dropWhile_cons_of_neg
      have hx : notSpaceChar x = true := List.all_eq_true.mp hball x (by simp)
      intro hxs
      rw [notSpaceChar, hxs] at hx
      exact absurd hx (by decide)
  have hdW : (w2 ++ b).dropWhile isSpaceChar = b := by
    rw [dropWhile_append_of_all hw2, hbd]
  have hem : b.isEmpty = false := by
    cases b with
    | nil => exact absurd rfl hb
    | cons _ _ => rfl
  have hany : b.any isSpaceChar = false := any_eq_false_of_all_not hball
  rw [secondTok, hdW, if_neg (by simp [hem]), if_neg (by simp [hany])]

theorem shrinkScan_sound {revL post A B : List Char}
    (h : shrinkScan revL post = some (A, B)) :
    ∃ x, revL = x ++ '-' :: A.reverse ∧ A ≠ [] ∧ secondTok (x.reverse ++ post) = some B := by
  induction revL generalizing post with
  | nil => simp [shrinkScan] at h
  | cons c preRev ih =>
    rw [shrinkScan] at h
    by_cases hc : (c == '-' && !preRev.isEmpty) = true
    · rw [if_pos hc] at h
      cases hst : secondTok post with
      | some b2 =>
        rw [hst] at h
        have hinj : preRev.reverse = A ∧ b2 = B := by simpa using h
        obtain ⟨hA, hB⟩ := hinj
        simp only [Bool.and_eq_true] at hc
        obtain ⟨hc1, hc2⟩ := hc
        have hc1' : c = '-' := beq_iff_eq.mp hc1
        refine ⟨[], ?_, ?_, ?_⟩
        · rw [List.nil_append, hc1', ← hA, List.reverse_reverse]
        · intro hAnil
          rw [← hA, List.reverse_eq_nil_iff] at hAnil
          rw [hAnil] at hc2
          exact absurd hc2 (by decide)
        · rw [List.reverse_nil, List.nil_append, hst, hB]
      | none =>
        rw [hst] at h
        rcases ih h with ⟨x, hx, hA, hsec⟩
        refine ⟨c :: x, by rw [hx]; rfl, hA, ?_⟩
        rw [List.reverse_cons, List.append_assoc]
        exact hsec
    · rw [if_neg hc] at h
      rcases ih h with ⟨x, hx, hA, hsec⟩
      refine ⟨c :: x, by rw [hx]; rfl, hA, ?_⟩
      rw [List.reverse_cons, List.append_assoc]
      exact hsec

theorem shrinkScan_complete {x y post : List Char} (hy : y ≠ [])
    (hst : secondTok (x.reverse ++ post) ≠ none) :
    shrinkScan (x ++ '-' :: y) post ≠ none := by
  induction x generalizing post with
  | nil =>
    show shrinkScan ('-' :: y) post ≠ none
    rw [shrinkScan]
    have hcond : (('-' == '-') && !y.isEmpty) = true := by
      rw [Bool.and_eq_true]
      refine ⟨by decide, ?_⟩
      cases y with
      | nil => exact absurd rfl hy
      | cons _ _ => rfl
    rw [if_pos hcond]
    cases hsec : secondTok post with
    | some b => simp
    | none =>
      exact absurd hsec hst
  | cons c x2 ih =>
    show shrinkScan (c :: (x2 ++ '-' :: y)) post ≠ none
    rw [shrinkScan]
    by_cases hc : ((c == '-') && !(x2 ++ '-' :: y).isEmpty) = true
    · rw [if_pos hc]
      cases hsec : secondTok post with
      | some b => simp
      | none =>
        apply ih
        intro hn
        apply hst
        rw [List.reverse_cons, List.append_assoc]
        exact hn
    · rw [if_neg hc]
      apply ih
      intro hn
      apply hst
      rw [List.reverse_cons, List.append_assoc]
      exact hn

theorem pspShrink_ne {a0 tl : List Char} (h : shrinkScan a0.reverse tl ≠ none) :
    pspShrink a0 tl ≠ ([], []) := by
  cases hscan : shrinkScan a0.reverse tl with
  | none => exact absurd hscan h
  | some ab =>
    cases ab with
    | mk A B =>
      rcases shrinkScan_sound hscan with ⟨x, _, hAne, _⟩
      rw [pspShrink, hscan]
      intro heq
      have heq2 : (A, B) = (([] : List Char), ([] : List Char)) := heq
      injection heq2 with h1 _
      exact hAne h1

theorem pspShrink_sound {a0 tl A B : List Char} (ha0 : a0.all notSpaceChar = true)
    (h : pspShrink a0 tl = (A, B)) :
    (A = [] ∧ B = []) ∨
    (∃ w2, a0 ++ tl = A ++ '-' :: (w2 ++ B) ∧ A ≠ [] ∧ B ≠ [] ∧
      A.all notSpaceChar = true ∧ B.all notSpaceChar = true ∧ w2.all isSpaceChar = true) := by
  cases hscan : shrinkScan a0.reverse tl with
  | none =>
    rw [pspShrink, hscan] at h
    have h2 : (([] : List Char), ([] : List Char)) = (A, B) := h
    injection h2 with hA hB
    exact Or.inl ⟨hA.symm, hB.symm⟩
  | some ab =>
    cases ab with
    | mk A2 B2 =>
      rw [pspShrink, hscan] at h
      have h2 : (A2, B2) = (A, B) := h
      injection h2 with hA hB
      subst hA
      subst hB
      rcases shrinkScan_sound hscan with ⟨x, hrev, hAne, hsec⟩
      have ha0eq : a0 = A2 ++ '-' :: x.reverse := by
        have hr2 := congrArg List.reverse hrev
        rw [List.reverse_reverse] at hr2
        rw [hr2, List.reverse_append, List.reverse_cons, List.reverse_reverse,
          List.append_assoc]
        rfl
      rcases secondTok_eq_some hsec with ⟨hsp, hBne, hBall⟩
      right
      refine ⟨(x.reverse ++ tl).takeWhile isSpaceChar, ?_, hAne, hBne, ?_, hBall,
        all_takeWhile⟩
      · rw [ha0eq, List.append_assoc, List.cons_append, ← hsp]
      · rw [ha0eq, List.all_append] at ha0
        simp only [Bool.and_eq_true] at ha0
        exact ha0.1

theorem pspAfterFirst_sound {a0 tl A B : List Char}
    (ha0 : a0.all notSpaceChar = true) (ha0ne : a0 ≠ [])
    (h : pspAfterFirst a0 tl = (A, B)) :
    (A = [] ∧ B = []) ∨
    (∃ w1 w2, a0 ++ tl = A ++ w1 ++ '-' :: (w2 ++ B) ∧ A ≠ [] ∧ B ≠ [] ∧
      A.all notSpaceChar = true ∧ B.all notSpaceChar = true ∧
      w1.all isSpaceChar = true ∧ w2.all isSpaceChar = true) := by
  cases hstrip : stripLit ['-'] (tl.dropWhile isSpaceChar) with
  | none =>
    simp only [pspAfterFirst, hstrip] at h
    rcases pspShrink_sound ha0 h with hl | ⟨w2, heq, hAne, hBne, hAall, hBall, hw2⟩
    · exact Or.inl hl
    · right
      exact ⟨[], w2, by rw [List.append_nil]; exact heq, hAne, hBne, hAall, hBall, rfl, hw2⟩
  | some r =>
    simp only [pspAfterFirst, hstrip] at h
    cases hsec : secondTok r with
    | none =>
      rw [hsec] at h
      have h2 : pspShrink a0 tl = (A, B) := h
      rcases pspShrink_sound ha0 h2 with hl | ⟨w2, heq, hAne, hBne, hAall, hBall, hw2⟩
      · exact Or.inl hl
      · right
        exact ⟨[], w2, by rw [List.append_nil]; exact heq, hAne, hBne, hAall, hBall, rfl, hw2⟩
    | some b =>
      rw [hsec] at h
      have h2 : (a0, b) = (A, B) := h
      injection h2 with hA hB
      subst hA
      subst hB
      have htldrop : tl.dropWhile isSpaceChar = '-' :: r := by
        have hsl := stripLit_some_iff.mp hstrip
        simpa using hsl
      have htl : tl = tl.takeWhile isSpaceChar ++ ('-' :: r) := by
        conv_lhs => rw [← List.takeWhile_append_dropWhile isSpaceChar tl]
        rw [htldrop]
      rcases secondTok_eq_some hsec with ⟨hr, hbne, hball⟩
      right
      refine ⟨tl.takeWhile isSpaceChar, r.takeWhile isSpaceChar, ?_, ha0ne, hbne, ha0, hball,
        all_takeWhile, all_takeWhile⟩
      conv_lhs => rw [htl, hr]
      simp [List.append_assoc]

theorem psp_sound (t : List Char) :
    parse_service_period t = ([], []) ∨
    ∃ a b, parse_service_period t = (a, b) ∧ twoTokenShape t a b := by
  by_cases hemp : ((stripChars t).takeWhile notSpaceChar).isEmpty = true
  · left
    rw [parse_service_period, if_pos hemp]
  · cases hpair : pspAfterFirst ((stripChars t).takeWhile notSpaceChar)
        ((stripChars t).dropWhile notSpaceChar) with
    | mk A B =>
      have hres : parse_service_period t = (A, B) := by
        rw [parse_service_period, if_neg hemp, hpair]
      have ha0ne : (stripChars t).takeWhile notSpaceChar ≠ [] := by
        intro hnil
        exact hemp (by rw [hnil]; rfl)
      rcases pspAfterFirst_sound all_takeWhile ha0ne hpair with
        ⟨hA, hB⟩ | ⟨w1, w2, heq, hAne, hBne, hAall, hBall, hw1, hw2⟩
      · left
        rw [hres, hA, hB]
      · right
        refine ⟨A, B, hres, w1, w2, ?_, hAne, hBne, hAall, hBall, hw1, hw2⟩
        rw [← heq, List.takeWhile_append_dropWhile]

theorem psp_complete {t a b : List Char} (h : twoTokenShape t a b) :
    parse_service_period t ≠ ([], []) := by
  obtain ⟨w1, w2, hsplit, hane, hbne, haall, hball, hw1, hw2⟩ := h
  cases w1 with
  | cons c w1x =>
    have hc : isSpaceChar c = true := List.all_eq_true.mp hw1 c (by simp)
    have hcns : notSpaceChar c = false := by rw [notSpaceChar, hc]; rfl
    have ha0 : (stripChars t).takeWhile notSpaceChar = a := by
      rw [hsplit, List.append_assoc, takeWhile_append_of_all haall,
        show ((c :: w1x) ++ '-' :: (w2 ++ b)) = c :: (w1x ++ '-' :: (w2 ++ b)) from rfl,
        List.takeWhile_cons_of_neg (by rw [hcns]; exact Bool.false_ne_true),
        List.append_nil]
    have htl : (stripChars t).dropWhile notSpaceChar = (c :: w1x) ++ '-' :: (w2 ++ b) := by
      rw [hsplit, List.append_assoc, dropWhile_append_of_all haall]
      exact List.dropWhile_cons_of_neg (by rw [hcns]; exact Bool.false_ne_true)
    have hemp : ((stripChars t).takeWhile notSpaceChar).isEmpty = false := by
      rw [ha0]
      cases a with
      | nil => exact absurd rfl hane
      | cons _ _ => rfl
    rw [parse_service_period, if_neg (by rw [hemp]; exact Bool.false_ne_true), ha0, htl]
    have hdrop : ((c :: w1x) ++ '-' :: (w2 ++ b)).dropWhile isSpaceChar = '-' :: (w2 ++ b) := by
      rw [dropWhile_append_of_all hw1]
      exact List.dropWhile_cons_of_neg (by decide)
    have e1 : stripLit ['-'] (((c :: w1x) ++ '-' :: (w2 ++ b)).dropWhile isSpaceChar) =
        some (w2 ++ b) := by
      rw [hdrop]
      exact stripLit_some_iff.mpr rfl
    have e2 : secondTok (w2 ++ b) = some b := secondTok_of_shape hw2 hbne hball
    have hres : pspAfterFirst a ((c :: w1x) ++ '-' :: (w2 ++ b)) = (a, b) := by
      simp only [pspAfterFirst, e1, e2]
    rw [hres]
    intro heq
    injection heq with h1 _
    exact hane h1
  | nil =>
    cases w2 with
    | cons cw w2x =>
      have hsplit2 : stripChars t = a ++ '-' :: ((cw :: w2x) ++ b) := by
        rw [hsplit]; simp
      have hcw : isSpaceChar cw = true := List.all_eq_true.mp hw2 cw (by simp)
      have hcwns : notSpaceChar cw = false := by rw [notSpaceChar, hcw]; rfl
      have ha0 : (stripChars t).takeWhile notSpaceChar = a ++ ['-'] := by
        rw [hsplit2, takeWhile_append_of_all haall,
          List.takeWhile_cons_of_pos (by decide),
          show ((cw :: w2x) ++ b) = cw :: (w2x ++ b) from rfl,
          List.takeWhile_cons_of_neg (by rw [hcwns]; exact Bool.false_ne_true)]
      have htl : (stripChars t).dropWhile notSpaceChar = (cw :: w2x) ++ b := by
        rw [hsplit2, dropWhile_append_of_all haall,
          List.dropWhile_cons_of_pos (by decide)]
        exact List.dropWhile_cons_of_neg (by rw [hcwns]; exact Bool.false_ne_true)
      have hemp : ((stripChars t).takeWhile notSpaceChar).isEmpty = false := by
        rw [ha0]
        cases a with
        | nil => exact absurd rfl hane
        | cons _ _ => rfl
      rw [parse_service_period, if_neg (by rw [hemp]; exact Bool.false_ne_true), ha0, htl]
      have hdrop : ((cw :: w2x) ++ b).dropWhile isSpaceChar = b := by
        rw [dropWhile_append_of_all hw2]
        cases b with
        | nil => exact absurd rfl hbne
        | cons x xs =>
          apply List.dropWhile_cons_of_neg
          have hx : notSpaceChar x = true := List.all_eq_true.mp hball x (by simp)
          intro hxs
          rw [notSpaceChar, hxs] at hx
          exact absurd hx (by decide)
      cases b with
      | nil => exact absurd rfl hbne
      | cons bh bt =>
        by_cases hbh : bh = '-'
        · subst hbh
          have e1 : stripLit ['-'] (((cw :: w2x) ++ '-' :: bt).dropWhile isSpaceChar) =
              some bt := by
            rw [hdrop]
            exact stripLit_some_iff.mpr rfl
          cases bt with
          | nil =>
            have e2 : secondTok ([] : List Char) = none := rfl
            have hres : pspAfterFirst (a ++ ['-']) ((cw :: w2x) ++ ['-']) =
                pspShrink (a ++ ['-']) ((cw :: w2x) ++ ['-']) := by
              simp only [pspAfterFirst, e1, e2]
            rw [hres]
            apply pspShrink_ne
            have hrev : (a ++ ['-']).reverse = [] ++ '-' :: a.reverse := by
              rw [List.reverse_append]; rfl
            rw [hrev]
            apply shrinkScan_complete
            · intro hnil
              exact hane (List.reverse_eq_nil_iff.mp hnil)
            · rw [show (([] : List Char).reverse ++ ((cw :: w2x) ++ ['-'])) =
                  ((cw :: w2x) ++ ['-']) from rfl,
                secondTok_of_shape hw2 (List.cons_ne_nil _ _) (by decide)]
              simp
          | cons b2h b2t =>
            have hb2all : (b2h :: b2t).all notSpaceChar = true := by
              rw [List.all_cons] at hball
              simp only [Bool.and_eq_true] at hball
              exact hball.2
            have e2 : secondTok (b2h :: b2t) = some (b2h :: b2t) := by
              rw [show (b2h :: b2t) = ([] : List Char) ++ (b2h :: b2t) from rfl]
              exact secondTok_of_shape List.all_nil (List.cons_ne_nil _ _) hb2all
            have hres : pspAfterFirst (a ++ ['-']) ((cw :: w2x) ++ '-' :: (b2h :: b2t)) =
                (a ++ ['-'], b2h :: b2t) := by
              simp only [pspAfterFirst, e1, e2]
            rw [hres]
            intro heq
            injection heq with h1 _
            exact absurd h1 (by simp)
        · have e1 : stripLit ['-'] (((cw :: w2x) ++ (bh :: bt)).dropWhile isSpaceChar) =
              none := by
            rw [hdrop, stripLit, if_neg (fun hx => hbh hx.symm)]
          have hres : pspAfterFirst (a ++ ['-']) ((cw :: w2x) ++ (bh :: bt)) =
              pspShrink (a ++ ['-']) ((cw :: w2x) ++ (bh :: bt)) := by
            simp only [pspAfterFirst, e1]
          rw [hres]
          apply pspShrink_ne
          have hrev : (a ++ ['-']).reverse = [] ++ '-' :: a.reverse := by
            rw [List.reverse_append]; rfl
          rw [hrev]
          apply shrinkScan_complete
          · intro hnil
            exact hane (List.reverse_eq_nil_iff.mp hnil)
          · rw [show (([] : List Char).reverse ++ ((cw :: w2x) ++ (bh :: bt))) =
                ((cw :: w2x) ++ (bh :: bt)) from rfl,
              secondTok_of_shape hw2 (List.cons_ne_nil _ _) hball]
            simp
    | nil =>
      have hsplit2 : stripChars t = a ++ '-' :: b := by
        rw [hsplit]; simp
      have hsall : (stripChars t).all notSpaceChar = true := by
        rw [hsplit2, List.all_append, List.all_cons, haall, hball]
        decide
      have ha0 : (stripChars t).takeWhile notSpaceChar = stripChars t :=
        takeWhile_eq_self_of_all hsall
      have htl0 : (stripChars t).dropWhile notSpaceChar = [] :=
        dropWhile_eq_nil_of_all hsall
      have hemp : ((stripChars t).takeWhile notSpaceChar).isEmpty = false := by
        rw [ha0, hsplit2]
        cases a with
        | nil => exact absurd rfl hane
        | cons _ _ => rfl
      rw [parse_service_period, if_neg (by rw [hemp]; exact Bool.false_ne_true), ha0, htl0]
      have e1 : stripLit ['-'] (([] : List Char).dropWhile isSpaceChar) = none := rfl
      have hres : pspAfterFirst (stripChars t) [] = pspShrink (stripChars t) [] := by
        simp only [pspAfterFirst, e1]
      rw [hres]
      apply pspShrink_ne
      have hrev : (stripChars t).reverse = b.reverse ++ '-' :: a.reverse := by
        rw [hsplit2, List.reverse_append, List.reverse_cons, List.append_assoc]
        rfl
      rw [hrev]
      apply shrinkScan_complete
      · intro hnil
        exact hane (List.reverse_eq_nil_iff.mp hnil)
      · rw [List.reverse_reverse, List.append_nil]
        cases b with
        | nil => exact absurd rfl hbne
        | cons x xs =>
          rw [show (x :: xs) = ([] : List Char) ++ (x :: xs) from rfl,
            secondTok_of_shape List.all_nil (List.cons_ne_nil _ _) hball]
          simp

/-- C6: parse_service_period returns a pair of tokens exactly when the
    trimmed input consists of two whitespace-free tokens separated by a
    hyphen (the returned pair is such a decomposition), and ("", "")
    otherwise; in particular on "מרץ - אפריל" it returns the two month
    tokens and on "מרץ" it returns the empty pair. -/
theorem claim_C6 (t : List Char) :
    ((∃ a b, twoTokenShape t a b) →
      ∃ a b, parse_service_period t = (a, b) ∧ twoTokenShape t a b) ∧
    ((¬ ∃ a b, twoTokenShape t a b) → parse_service_period t = ([], [])) ∧
    parse_service_period "מרץ - אפריל".toList = ("מרץ".toList, "אפריל".toList) ∧
    parse_service_period "מרץ".toList = ([], []) := by
  refine ⟨?_, ?_, by decide, by decide⟩
  · rintro ⟨a, b, hshape⟩
    rcases psp_sound t with h | h
    · exact absurd h (psp_complete hshape)
    · exact h
  · intro hno
    rcases psp_sound t with h | ⟨a, b, heq, hshape⟩
    · exact h
    · exact absurd ⟨a, b, hshape⟩ hno

theorem claim_C6_witness :
    ∃ a b, parse_service_period "א - ב".toList = (a, b) ∧
      twoTokenShape "א - ב".toList a b :=
  (claim_C6 "א - ב".toList).1
    ⟨"א".toList, "ב".toList, [' '], [' '],
      by decide, by decide, by decide, by decide, by decide, by decide, by decide⟩

end ViewAds
